import Mathlib

/-!
Verification of the locator data model of `pxr/imaging/hd/dataSourceLocator.h`
(`HdDataSourceLocator` and `HdDataSourceLocatorSet`).

The header declares the operations; the method bodies are not part of the
available sources, so every operation below whose body is missing is modelled
from the specification (`spec.md`), faithful to its wording.  Tokens
(`TfToken`) are modelled as an arbitrary linearly ordered type `α`, matching
the spec's "opaque, comparable, hashable name atom" with a total order.
A locator's `_tokens` member (a `TfSmallVector<TfToken, 6>` in the header) is
modelled as a `List α`; the small-size optimization is a storage detail with
no functional content (spec §9).
-/

namespace HdSpec

variable {α : Type} [LinearOrder α]

/-- Modelled from the spec: the strict lexicographic order on token sequences
("lexicographic over elements using the token type's own total order, with
shorter-is-less when one is a prefix of the other", spec §4.1 Ordering),
underlying `HdDataSourceLocator::operator<` whose body is not in the header. -/
def lexLt : List α → List α → Bool
  | [], [] => false
  | [], _ :: _ => true
  | _ :: _, [] => false
  | x :: xs, y :: ys => if x < y then true else if y < x then false else lexLt xs ys

/-- Modelled from the spec: `hasPref p s` decides whether the token sequence
`p` is a leading subsequence of `s` ("`prefix`'s elements equal `self`'s first
`prefix.GetElementCount()` elements", spec §4.1 HasPrefix), underlying
`HdDataSourceLocator::HasPrefix` whose body is not in the header. -/
def hasPref : List α → List α → Bool
  | [], _ => true
  | _ :: _, [] => false
  | p :: ps, x :: xs => if p = x then hasPref ps xs else false

/-- Modelled from the spec: the longest common leading token sequence,
"computed by scanning element-wise from index 0 until tokens differ or either
sequence ends" (spec §4.1 GetCommonPrefix), underlying
`HdDataSourceLocator::GetCommonPrefix` whose body is not in the header. -/
def commonPref : List α → List α → List α
  | x :: xs, y :: ys => if x = y then x :: commonPref xs ys else []
  | _, _ => []

/-- `HdDataSourceLocator`: "an immutable ordered sequence of tokens
representing a path from the root of the hierarchy to a node".  The private
member `_tokens` (`TfSmallVector<TfToken, 6>` in the header) is a `List α`. -/
structure HdDataSourceLocator (α : Type) where
  _tokens : List α
deriving DecidableEq

namespace HdDataSourceLocator

variable {α : Type} [LinearOrder α]

/-- `HdDataSourceLocator::EmptyLocator`: "a common empty locator". -/
def EmptyLocator : HdDataSourceLocator α := ⟨[]⟩

/-- `HdDataSourceLocator::GetElementCount`: the number of elements (tokens). -/
def GetElementCount (self : HdDataSourceLocator α) : Nat := self._tokens.length

/-- `HdDataSourceLocator::IsEmpty`, defined inline in the header as
`_tokens.empty()`. -/
def IsEmpty (self : HdDataSourceLocator α) : Bool := self._tokens.isEmpty

/-- Modelled from the spec: `HdDataSourceLocator::HasPrefix` (body not in the
header): "true iff `prefix`'s elements equal `self`'s first
`prefix.GetElementCount()` elements" (spec §4.1). -/
def HasPrefix (self pre : HdDataSourceLocator α) : Bool :=
  hasPref pre._tokens self._tokens

/-- Modelled from the spec: `HdDataSourceLocator::GetCommonPrefix` (body not
in the header): "the longest locator that is a prefix of both `self` and
`other`" (spec §4.1). -/
def GetCommonPrefix (self other : HdDataSourceLocator α) : HdDataSourceLocator α :=
  ⟨commonPref self._tokens other._tokens⟩

/-- Modelled from the spec: `HdDataSourceLocator::Append(locator)` (body not
in the header): "concatenates the operand's full element sequence after
`self`'s" (spec §4.1). -/
def Append (self locator : HdDataSourceLocator α) : HdDataSourceLocator α :=
  ⟨self._tokens ++ locator._tokens⟩

/-- Modelled from the spec: `HdDataSourceLocator::Prepend(locator)` (body not
in the header): "symmetric, concatenate before `self`'s elements" (spec §4.1). -/
def Prepend (self locator : HdDataSourceLocator α) : HdDataSourceLocator α :=
  ⟨locator._tokens ++ self._tokens⟩

/-- Modelled from the spec: `HdDataSourceLocator::Append(name)` (body not in
the header): appends the single token `name`. -/
def AppendToken (self : HdDataSourceLocator α) (name : α) : HdDataSourceLocator α :=
  ⟨self._tokens ++ [name]⟩

/-- Modelled from the spec: `HdDataSourceLocator::Prepend(name)` (body not in
the header): prepends the single token `name`. -/
def PrependToken (self : HdDataSourceLocator α) (name : α) : HdDataSourceLocator α :=
  ⟨name :: self._tokens⟩

/-- Modelled from the spec: `HdDataSourceLocator::RemoveLastElement` (body not
in the header): "drop one element from the respective end; removing from an
empty locator yields the empty locator (no error)" (spec §4.1). -/
def RemoveLastElement (self : HdDataSourceLocator α) : HdDataSourceLocator α :=
  ⟨self._tokens.dropLast⟩

/-- Modelled from the spec: `HdDataSourceLocator::RemoveFirstElement` (body
not in the header): drops the first element; the empty locator yields the
empty locator (spec §4.1). -/
def RemoveFirstElement (self : HdDataSourceLocator α) : HdDataSourceLocator α :=
  ⟨self._tokens.tail⟩

/-- Modelled from the spec: `HdDataSourceLocator::ReplaceLastElement` (body
not in the header): "if empty, returns an identical (empty) copy; otherwise
returns a copy with the final element replaced" (spec §4.1). -/
def ReplaceLastElement (self : HdDataSourceLocator α) (name : α) :
    HdDataSourceLocator α :=
  if self._tokens.isEmpty then self else ⟨self._tokens.dropLast ++ [name]⟩

/-- Modelled from the spec: `HdDataSourceLocator::ReplacePrefix` (body not in
the header): "if `self` does not have `oldPrefix` as a prefix, behavior is to
return `self` unchanged; otherwise returns `newPrefix` concatenated with
`self`'s elements past `oldPrefix`'s length" (spec §4.1). -/
def ReplacePrefix (self oldPre newPre : HdDataSourceLocator α) :
    HdDataSourceLocator α :=
  if HasPrefix self oldPre then
    ⟨newPre._tokens ++ self._tokens.drop oldPre._tokens.length⟩
  else self

/-- Modelled from the spec: `HdDataSourceLocator::Intersects` (body not in the
header): "true iff `self.HasPrefix(other) || other.HasPrefix(self)`"
(spec §4.1). -/
def Intersects (self other : HdDataSourceLocator α) : Bool :=
  HasPrefix self other || HasPrefix other self

/-- Modelled from the spec: `HdDataSourceLocator::operator<` (body not in the
header): "strict total order, lexicographic over elements using the token
type's own total order, with shorter-is-less when one is a prefix of the
other" (spec §4.1). -/
def lt (self rhs : HdDataSourceLocator α) : Bool :=
  lexLt self._tokens rhs._tokens

end HdDataSourceLocator

variable {α : Type} [LinearOrder α]

/-- The non-strict comparison used to sort the member list of a locator set:
`locLE a b` holds when `a` does not come strictly after `b` in the locator
total order (spec §4.2 Flatten: "sort all current+pending locators by the
Locator total order"). -/
def locLE (a b : HdDataSourceLocator α) : Prop :=
  lexLt b._tokens a._tokens = false

/-- The strict locator order as a proposition, used to state that flatten
output is strictly increasing. -/
def locLT (a b : HdDataSourceLocator α) : Prop :=
  lexLt a._tokens b._tokens = true

instance : DecidableRel (@locLE α _) := fun a b => by
  unfold locLE; infer_instance

instance : DecidableRel (@locLT α _) := fun a b => by
  unfold locLT; infer_instance

/-- `HdDataSourceLocatorSet`: "a set of data source locators"; its private
member `_locators` (`TfSmallVector<HdDataSourceLocator, 8>` in the header) is
a list kept sorted and minimal by `_Flatten`. -/
structure HdDataSourceLocatorSet (α : Type) where
  _locators : List (HdDataSourceLocator α)
deriving DecidableEq

namespace HdDataSourceLocatorSet

/-- Modelled from the spec: the left-to-right scan of the flatten algorithm,
carrying the last retained locator: "for each candidate in order, if the last
retained locator HasPrefix-contains it, discard the candidate (redundant);
otherwise retain it and update last retained" (spec §4.2 Flatten). -/
def flattenScanAux (last : HdDataSourceLocator α) :
    List (HdDataSourceLocator α) → List (HdDataSourceLocator α)
  | [] => []
  | y :: ys =>
    if HdDataSourceLocator.HasPrefix y last then flattenScanAux last ys
    else y :: flattenScanAux y ys

/-- Modelled from the spec: the scan over an already sorted list; the first
locator is always retained (spec §4.2 Flatten). -/
def flattenScan : List (HdDataSourceLocator α) → List (HdDataSourceLocator α)
  | [] => []
  | x :: xs => x :: flattenScanAux x xs

/-- Modelled from the spec: `HdDataSourceLocatorSet::_Flatten` (body not in
the header): "sort all current+pending locators by the Locator total order
... scan once, left to right" merging redundant locators (spec §4.2). -/
def canon (ls : List (HdDataSourceLocator α)) : List (HdDataSourceLocator α) :=
  flattenScan (List.insertionSort locLE ls)

/-- The default-constructed, empty `HdDataSourceLocatorSet`. -/
def empty : HdDataSourceLocatorSet α := ⟨[]⟩

/-- Modelled from the spec: `HdDataSourceLocatorSet::insert(locator)` (body
not in the header): "adds `locator` to the set, then restores minimality"
via the flatten step (spec §4.2). -/
def insert (s : HdDataSourceLocatorSet α) (locator : HdDataSourceLocator α) :
    HdDataSourceLocatorSet α :=
  ⟨canon (locator :: s._locators)⟩

/-- Modelled from the spec: `HdDataSourceLocatorSet::insert(locatorSet)` (body
not in the header): inserts all members of the operand set, then restores
minimality via the flatten step (spec §4.2). -/
def insertSet (s : HdDataSourceLocatorSet α) (locatorSet : HdDataSourceLocatorSet α) :
    HdDataSourceLocatorSet α :=
  ⟨canon (locatorSet._locators ++ s._locators)⟩

/-- Modelled from the spec: `HdDataSourceLocatorSet::Intersects(locator)`
(body not in the header): "true iff `locator` intersects any member (per
Locator::Intersects)" (spec §4.2). -/
def Intersects (s : HdDataSourceLocatorSet α) (locator : HdDataSourceLocator α) : Bool :=
  s._locators.any fun m => HdDataSourceLocator.Intersects m locator

/-- Modelled from the spec: `HdDataSourceLocatorSet::Intersects(locatorSet)`
(body not in the header): "true iff any member of `self` intersects any member
of the operand" (spec §4.2). -/
def IntersectsSet (s t : HdDataSourceLocatorSet α) : Bool :=
  s._locators.any fun m => t._locators.any fun n => HdDataSourceLocator.Intersects m n

/-- Modelled from the spec: `HdDataSourceLocatorSet::IsEmpty` (body not in the
header). -/
def IsEmpty (s : HdDataSourceLocatorSet α) : Bool := s._locators.isEmpty

end HdDataSourceLocatorSet

/-- The minimality invariant of a locator set: "no member is a prefix of (or
equal to) any other member" (spec §3). -/
def IsMinimal (s : HdDataSourceLocatorSet α) : Prop :=
  ∀ a ∈ s._locators, ∀ b ∈ s._locators, a ≠ b →
    HdDataSourceLocator.HasPrefix a b = false

/-!  Theorems.  First the token-sequence level facts, then the order-class
instances for the sort relation, then the flatten lemmas, then the claims. -/

theorem hasPref_iff (p s : List α) : hasPref p s = true ↔ p <+: s := by
  induction p generalizing s with
  | nil => simp [hasPref]
  | cons a p ih =>
    cases s with
    | nil => simp [hasPref]
    | cons b s =>
      by_cases hab : a = b
      · subst hab
        simp [hasPref, ih, List.cons_prefix_cons]
      · simp [hasPref, hab, List.cons_prefix_cons]

theorem lexLt_iff_lex {a b : List α} : lexLt a b = true ↔ List.Lex (· < ·) a b := by
  induction a generalizing b with
  | nil =>
    cases b with
    | nil => simp [lexLt]
    | cons y ys => simpa [lexLt] using List.Lex.nil
  | cons x xs ih =>
    cases b with
    | nil => simp [lexLt]
    | cons y ys =>
      rcases lt_trichotomy x y with h | h | h
      · simpa [lexLt, h] using List.Lex.rel h
      · subst h
        simp only [lexLt, lt_irrefl, if_false]
        rw [ih, List.Lex.cons_iff]
      · simp only [lexLt, if_neg (asymm h : ¬x < y), if_pos h]
        constructor
        · intro hfalse; exact absurd hfalse (by simp)
        · intro hL
          exfalso
          cases hL with
          | cons h' => exact lt_irrefl x h
          | rel h' => exact asymm h h'

theorem lexLt_irrefl (l : List α) : lexLt l l = false := by
  cases h : lexLt l l with
  | false => rfl
  | true => exact absurd (lexLt_iff_lex.mp h) (irrefl l)

theorem lexLt_trans {a b c : List α} (h1 : lexLt a b = true) (h2 : lexLt b c = true) :
    lexLt a c = true :=
  lexLt_iff_lex.mpr (Trans.trans (lexLt_iff_lex.mp h1) (lexLt_iff_lex.mp h2))

theorem lexLt_asymm {a b : List α} (h : lexLt a b = true) : lexLt b a = false := by
  by_contra hba
  have hba' : lexLt b a = true := by revert hba; cases lexLt b a <;> simp
  have := lexLt_trans h hba'
  rw [lexLt_irrefl] at this
  exact Bool.false_ne_true this

theorem eq_of_lexLt_false {a b : List α} (h1 : lexLt a b = false) (h2 : lexLt b a = false) :
    a = b := by
  have htri : List.Lex (· < ·) a b ∨ a = b ∨ List.Lex (· < ·) b a :=
    @trichotomous _ (List.Lex (· < ·)) _ a b
  rcases htri with h | h | h
  · rw [lexLt_iff_lex.mpr h] at h1; exact absurd h1 (by simp)
  · exact h
  · rw [lexLt_iff_lex.mpr h] at h2; exact absurd h2 (by simp)

theorem lexLt_of_lexLt_false {a b : List α} (h : lexLt a b = false) :
    lexLt b a = true ∨ a = b := by
  cases hba : lexLt b a with
  | true => exact Or.inl rfl
  | false => exact Or.inr (eq_of_lexLt_false h hba)

theorem not_lexLt_of_isPref {p q : List α} (h : p <+: q) : lexLt q p = false := by
  induction p generalizing q with
  | nil => cases q <;> simp [lexLt]
  | cons a p ih =>
    cases q with
    | nil => simp at h
    | cons b q =>
      rw [List.cons_prefix_cons] at h
      obtain ⟨rfl, h⟩ := h
      simp [lexLt, ih h]

theorem lexLt_of_proper_isPref {p q : List α} (h : p <+: q) (hne : p ≠ q) :
    lexLt p q = true := by
  induction p generalizing q with
  | nil =>
    cases q with
    | nil => exact absurd rfl hne
    | cons b q => simp [lexLt]
  | cons a p ih =>
    cases q with
    | nil => simp at h
    | cons b q =>
      rw [List.cons_prefix_cons] at h
      obtain ⟨rfl, h⟩ := h
      have hne' : p ≠ q := fun e => hne (by rw [e])
      simp [lexLt, ih h hne']

theorem isPref_interval {p q m : List α} (h1 : lexLt q p = false)
    (h2 : lexLt m q = false) (hp : p <+: m) : p <+: q := by
  induction p generalizing q m with
  | nil => exact List.nil_prefix
  | cons a p ih =>
    cases m with
    | nil => simp at hp
    | cons c m =>
      rw [List.cons_prefix_cons] at hp
      obtain ⟨rfl, hp⟩ := hp
      cases q with
      | nil => simp [lexLt] at h1
      | cons b q =>
        by_cases hba : b < a
        · simp [lexLt, hba] at h1
        · by_cases hab : a < b
          · simp [lexLt, hab, hba] at h2
          · have hab' : a = b := le_antisymm (not_lt.mp hba) (not_lt.mp hab)
            subst hab'
            simp only [lexLt, lt_irrefl, if_false] at h1 h2
            rw [List.cons_prefix_cons]
            exact ⟨rfl, ih h1 h2 hp⟩

theorem commonPref_isPref_left (a b : List α) : commonPref a b <+: a := by
  induction a generalizing b with
  | nil => cases b <;> simp [commonPref]
  | cons x xs ih =>
    cases b with
    | nil => simp [commonPref]
    | cons y ys =>
      by_cases hxy : x = y
      · subst hxy
        simpa [commonPref] using (ih ys)
      · simp [commonPref, hxy]

theorem commonPref_isPref_right (a b : List α) : commonPref a b <+: b := by
  induction a generalizing b with
  | nil => cases b <;> simp [commonPref]
  | cons x xs ih =>
    cases b with
    | nil => simp [commonPref]
    | cons y ys =>
      by_cases hxy : x = y
      · subst hxy
        simpa [commonPref] using (ih ys)
      · simp [commonPref, hxy]

theorem isPref_commonPref {c a b : List α} (ha : c <+: a) (hb : c <+: b) :
    c <+: commonPref a b := by
  induction c generalizing a b with
  | nil => exact List.nil_prefix
  | cons x c ih =>
    cases a with
    | nil => simp at ha
    | cons y a =>
      cases b with
      | nil => simp at hb
      | cons z b =>
        rw [List.cons_prefix_cons] at ha hb
        obtain ⟨rfl, ha⟩ := ha
        obtain ⟨rfl, hb⟩ := hb
        simpa [commonPref] using ih ha hb

theorem tokens_injective {a b : HdDataSourceLocator α} (h : a._tokens = b._tokens) :
    a = b := by
  cases a; cases b; cases h; rfl

instance : IsTotal (HdDataSourceLocator α) locLE where
  total a b := by
    unfold locLE
    cases h : lexLt b._tokens a._tokens with
    | false => exact Or.inl rfl
    | true => exact Or.inr (lexLt_asymm h)

instance : IsTrans (HdDataSourceLocator α) locLE where
  trans a b c hab hbc := by
    unfold locLE at *
    cases h : lexLt c._tokens a._tokens with
    | false => rfl
    | true =>
      exfalso
      rcases lexLt_of_lexLt_false hab with hba | hba
      · have h2 := lexLt_trans h hba
        rw [hbc] at h2
        simp at h2
      · rw [hba] at hbc
        rw [hbc] at h
        simp at h

instance : IsAntisymm (HdDataSourceLocator α) locLE where
  antisymm a b hab hba := tokens_injective (eq_of_lexLt_false hba hab)

theorem HasPrefix_iff_isPref (a p : HdDataSourceLocator α) :
    HdDataSourceLocator.HasPrefix a p = true ↔ p._tokens <+: a._tokens := by
  unfold HdDataSourceLocator.HasPrefix
  exact hasPref_iff _ _

theorem HasPrefix_refl (a : HdDataSourceLocator α) :
    HdDataSourceLocator.HasPrefix a a = true :=
  (HasPrefix_iff_isPref a a).mpr (List.prefix_refl _)

theorem HasPrefix_trans {a b c : HdDataSourceLocator α}
    (h1 : HdDataSourceLocator.HasPrefix b a = true)
    (h2 : HdDataSourceLocator.HasPrefix c b = true) :
    HdDataSourceLocator.HasPrefix c a = true := by
  rw [HasPrefix_iff_isPref] at *
  exact h1.trans h2

theorem HasPrefix_antisymm {a b : HdDataSourceLocator α}
    (h1 : HdDataSourceLocator.HasPrefix a b = true)
    (h2 : HdDataSourceLocator.HasPrefix b a = true) : a = b := by
  rw [HasPrefix_iff_isPref] at h1 h2
  exact tokens_injective (h2.eq_of_length (le_antisymm h2.length_le h1.length_le))

theorem locLE_of_HasPrefix {a b : HdDataSourceLocator α}
    (h : HdDataSourceLocator.HasPrefix b a = true) : locLE a b := by
  rw [HasPrefix_iff_isPref] at h
  exact not_lexLt_of_isPref h

theorem locLE_interval {p q m : HdDataSourceLocator α} (h1 : locLE p q)
    (h2 : locLE q m) (hp : HdDataSourceLocator.HasPrefix m p = true) :
    HdDataSourceLocator.HasPrefix q p = true := by
  rw [HasPrefix_iff_isPref] at hp ⊢
  exact isPref_interval h1 h2 hp

namespace HdDataSourceLocatorSet

theorem flattenScanAux_sublist (last : HdDataSourceLocator α)
    (ys : List (HdDataSourceLocator α)) : List.Sublist (flattenScanAux last ys) ys := by
  induction ys generalizing last with
  | nil => simp [flattenScanAux]
  | cons y ys ih =>
    rw [flattenScanAux]
    by_cases h : HdDataSourceLocator.HasPrefix y last = true
    · rw [if_pos h]
      exact (ih last).trans (List.sublist_cons_self y ys)
    · rw [if_neg h]
      exact (ih y).cons₂ y

theorem flattenScan_sublist (s : List (HdDataSourceLocator α)) :
    List.Sublist (flattenScan s) s := by
  cases s with
  | nil => simp [flattenScan]
  | cons x xs => exact (flattenScanAux_sublist x xs).cons₂ x

theorem mem_flattenScanAux (last : HdDataSourceLocator α)
    (ys : List (HdDataSourceLocator α)) (hs : List.Sorted locLE (last :: ys))
    (m : HdDataSourceLocator α) :
    m ∈ flattenScanAux last ys ↔
      m ∈ ys ∧ HdDataSourceLocator.HasPrefix m last = false ∧
        ∀ p ∈ ys, HdDataSourceLocator.HasPrefix m p = true → p = m := by
  induction ys generalizing last with
  | nil => simp [flattenScanAux]
  | cons y ys ih =>
    rw [List.sorted_cons] at hs
    obtain ⟨hlast, hys⟩ := hs
    have hy : ∀ b ∈ ys, locLE y b := (List.sorted_cons.mp hys).1
    have hys' : List.Sorted locLE ys := (List.sorted_cons.mp hys).2
    rw [flattenScanAux]
    by_cases hd : HdDataSourceLocator.HasPrefix y last = true
    · rw [if_pos hd]
      have hsorted' : List.Sorted locLE (last :: ys) :=
        List.sorted_cons.mpr ⟨fun b hb => hlast b (List.mem_cons_of_mem y hb), hys'⟩
      rw [ih last hsorted']
      constructor
      · rintro ⟨hm, hml, hall⟩
        refine ⟨List.mem_cons_of_mem y hm, hml, ?_⟩
        intro p hp hpref
        rcases List.mem_cons.mp hp with rfl | hp'
        · exfalso
          have hcontra : HdDataSourceLocator.HasPrefix m last = true :=
            HasPrefix_trans hd hpref
          rw [hml] at hcontra
          simp at hcontra
        · exact hall p hp' hpref
      · rintro ⟨hm, hml, hall⟩
        rcases List.mem_cons.mp hm with rfl | hm'
        · rw [hd] at hml
          simp at hml
        · exact ⟨hm', hml, fun p hp hpref => hall p (List.mem_cons_of_mem y hp) hpref⟩
    · rw [if_neg hd]
      have hd' : HdDataSourceLocator.HasPrefix y last = false := by
        cases h : HdDataSourceLocator.HasPrefix y last
        · rfl
        · exact absurd h hd
      rw [List.mem_cons, ih y hys]
      constructor
      · rintro (rfl | ⟨hm, hmy, hall⟩)
        · refine ⟨List.mem_cons_self _ _, hd', ?_⟩
          intro p hp hpref
          rcases List.mem_cons.mp hp with rfl | hp'
          · rfl
          · exact antisymm (locLE_of_HasPrefix hpref) (hy p hp')
        · refine ⟨List.mem_cons_of_mem y hm, ?_, ?_⟩
          · cases h : HdDataSourceLocator.HasPrefix m last with
            | false => rfl
            | true =>
              exfalso
              have hle1 : locLE last y := hlast y (List.mem_cons_self y ys)
              have hle2 : locLE y m := hy m hm
              have hcontra : HdDataSourceLocator.HasPrefix y last = true :=
                locLE_interval hle1 hle2 h
              rw [hd'] at hcontra
              simp at hcontra
          · intro p hp hpref
            rcases List.mem_cons.mp hp with rfl | hp'
            · rw [hmy] at hpref
              simp at hpref
            · exact hall p hp' hpref
      · rintro ⟨hm, hml, hall⟩
        by_cases hmy : m = y
        · exact Or.inl hmy
        · have hm' : m ∈ ys := by
            rcases List.mem_cons.mp hm with h' | h'
            · exact absurd h' hmy
            · exact h'
          right
          refine ⟨hm', ?_, fun p hp hpref => hall p (List.mem_cons_of_mem y hp) hpref⟩
          cases h : HdDataSourceLocator.HasPrefix m y with
          | false => rfl
          | true =>
            exact absurd (hall y (List.mem_cons_self y ys) h) fun e => hmy e.symm

theorem mem_flattenScan (s : List (HdDataSourceLocator α))
    (hs : List.Sorted locLE s) (m : HdDataSourceLocator α) :
    m ∈ flattenScan s ↔
      m ∈ s ∧ ∀ p ∈ s, HdDataSourceLocator.HasPrefix m p = true → p = m := by
  cases s with
  | nil => simp [flattenScan]
  | cons x xs =>
    have hx : ∀ b ∈ xs, locLE x b := (List.sorted_cons.mp hs).1
    rw [flattenScan, List.mem_cons, mem_flattenScanAux x xs hs m]
    constructor
    · rintro (rfl | ⟨hm, hmx, hall⟩)
      · refine ⟨List.mem_cons_self _ _, ?_⟩
        intro p hp hpref
        rcases List.mem_cons.mp hp with rfl | hp'
        · rfl
        · exact antisymm (locLE_of_HasPrefix hpref) (hx p hp')
      · refine ⟨List.mem_cons_of_mem x hm, ?_⟩
        intro p hp hpref
        rcases List.mem_cons.mp hp with rfl | hp'
        · rw [hmx] at hpref
          simp at hpref
        · exact hall p hp' hpref
    · rintro ⟨hm, hall⟩
      by_cases hmx : m = x
      · exact Or.inl hmx
      · have hm' : m ∈ xs := by
          rcases List.mem_cons.mp hm with h' | h'
          · exact absurd h' hmx
          · exact h'
        right
        refine ⟨hm', ?_, fun p hp hpref => hall p (List.mem_cons_of_mem x hp) hpref⟩
        cases h : HdDataSourceLocator.HasPrefix m x with
        | false => rfl
        | true =>
          exact absurd (hall x (List.mem_cons_self x xs) h) fun e => hmx e.symm

theorem mem_canon (ls : List (HdDataSourceLocator α)) (m : HdDataSourceLocator α) :
    m ∈ canon ls ↔
      m ∈ ls ∧ ∀ p ∈ ls, HdDataSourceLocator.HasPrefix m p = true → p = m := by
  unfold canon
  rw [mem_flattenScan _ (List.sorted_insertionSort locLE ls) m]
  simp only [List.mem_insertionSort]

theorem canon_subset {ls : List (HdDataSourceLocator α)}
    {m : HdDataSourceLocator α} (h : m ∈ canon ls) : m ∈ ls :=
  ((mem_canon ls m).mp h).1

theorem locLT_trans {a b c : HdDataSourceLocator α} (h1 : locLT a b)
    (h2 : locLT b c) : locLT a c :=
  lexLt_trans h1 h2

theorem locLT_ne {a b : HdDataSourceLocator α} (h : locLT a b) : a ≠ b := by
  intro e
  subst e
  unfold locLT at h
  rw [lexLt_irrefl] at h
  simp at h

theorem flattenScanAux_strict (last : HdDataSourceLocator α)
    (ys : List (HdDataSourceLocator α)) (hs : List.Sorted locLE (last :: ys)) :
    (∀ z ∈ flattenScanAux last ys, locLT last z) ∧
      List.Pairwise locLT (flattenScanAux last ys) := by
  induction ys generalizing last with
  | nil => simp [flattenScanAux]
  | cons y ys ih =>
    rw [List.sorted_cons] at hs
    obtain ⟨hlast, hys⟩ := hs
    rw [flattenScanAux]
    by_cases hd : HdDataSourceLocator.HasPrefix y last = true
    · rw [if_pos hd]
      refine ih last ?_
      rw [List.sorted_cons] at hys
      exact List.sorted_cons.mpr ⟨fun b hb => hlast b (List.mem_cons_of_mem y hb), hys.2⟩
    · rw [if_neg hd]
      have hd' : HdDataSourceLocator.HasPrefix y last = false := by
        cases h : HdDataSourceLocator.HasPrefix y last
        · rfl
        · exact absurd h hd
      have hlty : locLT last y := by
        have hle : locLE last y := hlast y (List.mem_cons_self y ys)
        unfold locLE at hle
        rcases lexLt_of_lexLt_false hle with h | h
        · exact h
        · exfalso
          have heq : y = last := tokens_injective h
          rw [heq, HasPrefix_refl] at hd'
          simp at hd'
      obtain ⟨ihall, ihpw⟩ := ih y hys
      constructor
      · intro z hz
        rcases List.mem_cons.mp hz with rfl | hz'
        · exact hlty
        · exact locLT_trans hlty (ihall z hz')
      · exact List.pairwise_cons.mpr ⟨ihall, ihpw⟩

theorem flattenScan_strict (s : List (HdDataSourceLocator α))
    (hs : List.Sorted locLE s) : List.Pairwise locLT (flattenScan s) := by
  cases s with
  | nil => simp [flattenScan]
  | cons x xs =>
    rw [flattenScan]
    exact List.pairwise_cons.mpr (flattenScanAux_strict x xs hs)

theorem nodup_canon (ls : List (HdDataSourceLocator α)) : (canon ls).Nodup := by
  have h := flattenScan_strict _ (List.sorted_insertionSort locLE ls)
  exact List.Pairwise.imp (fun h' => locLT_ne h') h

theorem sorted_canon (ls : List (HdDataSourceLocator α)) :
    List.Sorted locLE (canon ls) :=
  List.Pairwise.sublist (flattenScan_sublist _) (List.sorted_insertionSort locLE ls)

theorem insertionSort_eq_of_perm {l l' : List (HdDataSourceLocator α)}
    (h : l.Perm l') : List.insertionSort locLE l = List.insertionSort locLE l' :=
  List.eq_of_perm_of_sorted
    ((List.perm_insertionSort locLE l).trans (h.trans (List.perm_insertionSort locLE l').symm))
    (List.sorted_insertionSort locLE l) (List.sorted_insertionSort locLE l')

theorem canon_perm {l l' : List (HdDataSourceLocator α)} (h : l.Perm l') :
    canon l = canon l' := by
  unfold canon
  rw [insertionSort_eq_of_perm h]

theorem exists_canon_le_aux (l : List (HdDataSourceLocator α)) :
    ∀ (n : Nat) (p : HdDataSourceLocator α), p._tokens.length ≤ n → p ∈ l →
      ∃ q ∈ canon l, HdDataSourceLocator.HasPrefix p q = true := by
  intro n
  induction n with
  | zero =>
    intro p hlen hp
    refine ⟨p, ?_, HasPrefix_refl p⟩
    rw [mem_canon]
    refine ⟨hp, ?_⟩
    intro r hr hpref
    rw [HasPrefix_iff_isPref] at hpref
    have hp0 : p._tokens = [] := List.length_eq_zero.mp (Nat.le_zero.mp hlen)
    rw [hp0] at hpref
    have hr0 : r._tokens = [] := List.prefix_nil.mp hpref
    exact tokens_injective (by rw [hr0, hp0])
  | succ n ihn =>
    intro p hlen hp
    by_cases hmin : ∀ r ∈ l, HdDataSourceLocator.HasPrefix p r = true → r = p
    · exact ⟨p, (mem_canon l p).mpr ⟨hp, hmin⟩, HasPrefix_refl p⟩
    · push_neg at hmin
      obtain ⟨r, hrl, hrpref, hrne⟩ := hmin
      have hrpref' : r._tokens <+: p._tokens := (HasPrefix_iff_isPref p r).mp hrpref
      have hlen_le : r._tokens.length ≤ p._tokens.length := hrpref'.length_le
      have hlt : r._tokens.length < p._tokens.length := by
        rcases lt_or_eq_of_le hlen_le with h | h
        · exact h
        · exact absurd (tokens_injective (hrpref'.eq_of_length h)) hrne
      obtain ⟨q, hq, hqpref⟩ := ihn r (by omega) hrl
      exact ⟨q, hq, HasPrefix_trans hqpref hrpref⟩

theorem exists_canon_le {l : List (HdDataSourceLocator α)}
    {p : HdDataSourceLocator α} (hp : p ∈ l) :
    ∃ q ∈ canon l, HdDataSourceLocator.HasPrefix p q = true :=
  exists_canon_le_aux l p._tokens.length p le_rfl hp

theorem canon_eq_of_mem_iff {l l' : List (HdDataSourceLocator α)}
    (h : ∀ m, m ∈ canon l ↔ m ∈ canon l') : canon l = canon l' :=
  List.eq_of_perm_of_sorted
    ((List.perm_ext_iff_of_nodup (nodup_canon l) (nodup_canon l')).mpr h)
    (sorted_canon l) (sorted_canon l')

theorem canon_append_canon (a l : List (HdDataSourceLocator α)) :
    canon (a ++ canon l) = canon (a ++ l) := by
  apply canon_eq_of_mem_iff
  intro m
  rw [mem_canon, mem_canon]
  constructor
  · rintro ⟨hm, hall⟩
    have hm' : m ∈ a ++ l := by
      rcases List.mem_append.mp hm with h' | h'
      · exact List.mem_append_left l h'
      · exact List.mem_append_right a (canon_subset h')
    refine ⟨hm', ?_⟩
    intro p hp hpref
    rcases List.mem_append.mp hp with hpa | hpl
    · exact hall p (List.mem_append_left _ hpa) hpref
    · obtain ⟨q, hq, hqpref⟩ := exists_canon_le hpl
      have hqm : HdDataSourceLocator.HasPrefix m q = true :=
        HasPrefix_trans hqpref hpref
      have hqeq : q = m := hall q (List.mem_append_right _ hq) hqm
      subst hqeq
      exact HasPrefix_antisymm hqpref hpref
  · rintro ⟨hm, hall⟩
    have hmcanon : m ∈ a ++ canon l := by
      rcases List.mem_append.mp hm with h' | h'
      · exact List.mem_append_left _ h'
      · refine List.mem_append_right _ ?_
        rw [mem_canon]
        exact ⟨h', fun p hp hpref => hall p (List.mem_append_right _ hp) hpref⟩
    refine ⟨hmcanon, ?_⟩
    intro p hp hpref
    rcases List.mem_append.mp hp with hpa | hpl
    · exact hall p (List.mem_append_left _ hpa) hpref
    · exact hall p (List.mem_append_right _ (canon_subset hpl)) hpref

theorem canon_idem (l : List (HdDataSourceLocator α)) :
    canon (canon l) = canon l := by
  have h := canon_append_canon [] l
  simpa using h

theorem foldl_insert_locators (ms : List (HdDataSourceLocator α)) :
    ∀ s : HdDataSourceLocatorSet α, s._locators = canon s._locators →
      (List.foldl insert s ms)._locators = canon (ms.reverse ++ s._locators) := by
  induction ms with
  | nil =>
    intro s hs
    simpa using hs
  | cons x ms ih =>
    intro s hs
    rw [List.foldl_cons]
    have hcanon : (insert s x)._locators = canon ((insert s x)._locators) := by
      show canon (x :: s._locators) = canon (canon (x :: s._locators))
      rw [canon_idem]
    rw [ih (insert s x) hcanon]
    show canon (ms.reverse ++ canon (x :: s._locators)) =
      canon ((x :: ms).reverse ++ s._locators)
    rw [canon_append_canon]
    congr 1
    simp [List.append_assoc]

theorem canon_minimal (ls : List (HdDataSourceLocator α)) :
    ∀ a ∈ canon ls, ∀ b ∈ canon ls, a ≠ b →
      HdDataSourceLocator.HasPrefix a b = false := by
  intro a ha b hb hne
  cases h : HdDataSourceLocator.HasPrefix a b with
  | false => rfl
  | true =>
    obtain ⟨-, hall⟩ := (mem_canon ls a).mp ha
    exact absurd (hall b (canon_subset hb) h) fun e => hne e.symm

theorem locators_injective {s t : HdDataSourceLocatorSet α}
    (h : s._locators = t._locators) : s = t := by
  cases s; cases t; cases h; rfl

end HdDataSourceLocatorSet

/-!  The claim theorems. -/

/-- C1: after every mutating call (`insert` of a locator or of another set)
returns, the locator set satisfies the flatten invariant: no member of the
set is a prefix of (or equal to) any other member — for every two distinct
members `a` and `b`, `a.HasPrefix(b)` is false. -/
theorem set_minimal_after_insert (s : HdDataSourceLocatorSet α)
    (l : HdDataSourceLocator α) (t : HdDataSourceLocatorSet α) :
    IsMinimal (s.insert l) ∧ IsMinimal (s.insertSet t) :=
  ⟨HdDataSourceLocatorSet.canon_minimal _, HdDataSourceLocatorSet.canon_minimal _⟩

theorem set_minimal_after_insert_witness :
    IsMinimal ((⟨[⟨[0, 1]⟩, ⟨[2]⟩]⟩ : HdDataSourceLocatorSet ℕ).insert ⟨[0]⟩) :=
  (set_minimal_after_insert (⟨[⟨[0, 1]⟩, ⟨[2]⟩]⟩ : HdDataSourceLocatorSet ℕ)
    ⟨[0]⟩ ⟨[]⟩).1

/-- C2: inserting a finite list of locators one by one into an empty
`HdDataSourceLocatorSet` yields the same final member set for every
permutation of the list; and inserting a whole set produces the same result
as inserting each of its members individually. -/
theorem insert_order_independent (l l' : List (HdDataSourceLocator α))
    (s t : HdDataSourceLocatorSet α) (hperm : l.Perm l')
    (hs : s._locators = HdDataSourceLocatorSet.canon s._locators) :
    List.foldl HdDataSourceLocatorSet.insert HdDataSourceLocatorSet.empty l =
      List.foldl HdDataSourceLocatorSet.insert HdDataSourceLocatorSet.empty l' ∧
    s.insertSet t = List.foldl HdDataSourceLocatorSet.insert s t._locators := by
  constructor
  · apply HdDataSourceLocatorSet.locators_injective
    rw [HdDataSourceLocatorSet.foldl_insert_locators l
      HdDataSourceLocatorSet.empty rfl]
    rw [HdDataSourceLocatorSet.foldl_insert_locators l'
      HdDataSourceLocatorSet.empty rfl]
    apply HdDataSourceLocatorSet.canon_perm
    exact List.Perm.append ((l.reverse_perm).trans
      (hperm.trans (l'.reverse_perm).symm)) (List.Perm.refl _)
  · apply HdDataSourceLocatorSet.locators_injective
    rw [HdDataSourceLocatorSet.foldl_insert_locators t._locators s hs]
    show HdDataSourceLocatorSet.canon (t._locators ++ s._locators) =
      HdDataSourceLocatorSet.canon (t._locators.reverse ++ s._locators)
    apply HdDataSourceLocatorSet.canon_perm
    exact List.Perm.append (t._locators.reverse_perm).symm (List.Perm.refl _)

theorem insert_order_independent_witness :
    List.foldl HdDataSourceLocatorSet.insert HdDataSourceLocatorSet.empty
        [(⟨[0]⟩ : HdDataSourceLocator ℕ), ⟨[0, 1]⟩, ⟨[2]⟩] =
      List.foldl HdDataSourceLocatorSet.insert HdDataSourceLocatorSet.empty
        [(⟨[2]⟩ : HdDataSourceLocator ℕ), ⟨[0, 1]⟩, ⟨[0]⟩] ∧
    (⟨[⟨[5]⟩]⟩ : HdDataSourceLocatorSet ℕ).insertSet ⟨[⟨[3]⟩]⟩ =
      List.foldl HdDataSourceLocatorSet.insert ⟨[⟨[5]⟩]⟩
        (⟨[⟨[3]⟩]⟩ : HdDataSourceLocatorSet ℕ)._locators :=
  insert_order_independent _ _ _ _ (by decide) (by decide)

/-- C3: `self.HasPrefix(prefix)` is true iff the prefix's element sequence
equals the first `prefix.GetElementCount()` elements of `self`; every locator
has the empty locator, and itself, as a prefix. -/
theorem hasPrefix_characterization (A P : HdDataSourceLocator α) :
    (A.HasPrefix P = true ↔ P._tokens = A._tokens.take P.GetElementCount) ∧
    A.HasPrefix HdDataSourceLocator.EmptyLocator = true ∧
    A.HasPrefix A = true := by
  refine ⟨?_, ?_, HasPrefix_refl A⟩
  · rw [HasPrefix_iff_isPref]
    exact List.prefix_iff_eq_take
  · rw [HasPrefix_iff_isPref]
    exact List.nil_prefix

theorem hasPrefix_characterization_witness :
    ((⟨[0, 1]⟩ : HdDataSourceLocator ℕ).HasPrefix ⟨[0]⟩ = true ↔
      (⟨[0]⟩ : HdDataSourceLocator ℕ)._tokens =
        (⟨[0, 1]⟩ : HdDataSourceLocator ℕ)._tokens.take
          (⟨[0]⟩ : HdDataSourceLocator ℕ).GetElementCount) ∧
    (⟨[0, 1]⟩ : HdDataSourceLocator ℕ).HasPrefix
      HdDataSourceLocator.EmptyLocator = true ∧
    (⟨[0, 1]⟩ : HdDataSourceLocator ℕ).HasPrefix ⟨[0, 1]⟩ = true :=
  hasPrefix_characterization _ _

/-- C4: `A.Intersects(B)` is true iff `A.HasPrefix(B)` or `B.HasPrefix(A)`;
`Intersects` is reflexive and symmetric. -/
theorem intersects_characterization (A B : HdDataSourceLocator α) :
    (A.Intersects B = true ↔
      (A.HasPrefix B = true ∨ B.HasPrefix A = true)) ∧
    A.Intersects A = true ∧
    A.Intersects B = B.Intersects A := by
  refine ⟨?_, ?_, ?_⟩
  · unfold HdDataSourceLocator.Intersects
    rw [Bool.or_eq_true]
  · unfold HdDataSourceLocator.Intersects
    rw [HasPrefix_refl]
    rfl
  · unfold HdDataSourceLocator.Intersects
    exact Bool.or_comm _ _

theorem intersects_characterization_witness :
    ((⟨[0, 1]⟩ : HdDataSourceLocator ℕ).Intersects ⟨[0]⟩ = true ↔
      ((⟨[0, 1]⟩ : HdDataSourceLocator ℕ).HasPrefix ⟨[0]⟩ = true ∨
        (⟨[0]⟩ : HdDataSourceLocator ℕ).HasPrefix ⟨[0, 1]⟩ = true)) ∧
    (⟨[0, 1]⟩ : HdDataSourceLocator ℕ).Intersects ⟨[0, 1]⟩ = true ∧
    (⟨[0, 1]⟩ : HdDataSourceLocator ℕ).Intersects ⟨[0]⟩ =
      (⟨[0]⟩ : HdDataSourceLocator ℕ).Intersects ⟨[0, 1]⟩ :=
  intersects_characterization _ _

/-- C5: `A.GetCommonPrefix(B)` is a prefix of both `A` and `B`, no common
prefix is longer, and when `A` and `B` share no leading element the result is
the empty locator. -/
theorem getCommonPrefix_correct (A B C : HdDataSourceLocator α) :
    A.HasPrefix (A.GetCommonPrefix B) = true ∧
    B.HasPrefix (A.GetCommonPrefix B) = true ∧
    (A.HasPrefix C = true → B.HasPrefix C = true →
      C.GetElementCount ≤ (A.GetCommonPrefix B).GetElementCount) ∧
    (A._tokens.head? ≠ B._tokens.head? →
      A.GetCommonPrefix B = HdDataSourceLocator.EmptyLocator) := by
  refine ⟨?_, ?_, ?_, ?_⟩
  · rw [HasPrefix_iff_isPref]
    exact commonPref_isPref_left _ _
  · rw [HasPrefix_iff_isPref]
    exact commonPref_isPref_right _ _
  · intro hA hB
    rw [HasPrefix_iff_isPref] at hA hB
    exact (isPref_commonPref hA hB).length_le
  · intro hhead
    apply tokens_injective
    show commonPref A._tokens B._tokens = ([] : List α)
    cases hA : A._tokens with
    | nil => cases B._tokens <;> simp [commonPref]
    | cons x xs =>
      cases hB : B._tokens with
      | nil => simp [commonPref]
      | cons y ys =>
        have hxy : x ≠ y := by
          intro e
          apply hhead
          rw [hA, hB, e]
          simp
        simp [commonPref, hxy]

theorem getCommonPrefix_correct_witness :
    (⟨[0, 1]⟩ : HdDataSourceLocator ℕ).HasPrefix
        ((⟨[0, 1]⟩ : HdDataSourceLocator ℕ).GetCommonPrefix ⟨[0, 2]⟩) = true ∧
    (⟨[0]⟩ : HdDataSourceLocator ℕ).GetElementCount ≤
      ((⟨[0, 1]⟩ : HdDataSourceLocator ℕ).GetCommonPrefix
        ⟨[0, 2]⟩).GetElementCount :=
  ⟨(getCommonPrefix_correct (⟨[0, 1]⟩ : HdDataSourceLocator ℕ) ⟨[0, 2]⟩
      ⟨[0]⟩).1,
   (getCommonPrefix_correct (⟨[0, 1]⟩ : HdDataSourceLocator ℕ) ⟨[0, 2]⟩
      ⟨[0]⟩).2.2.1 (by decide) (by decide)⟩

/-- C6: when `A.HasPrefix(P)`, `A.ReplacePrefix(P, Q)` equals `Q` followed by
`A`'s elements past `P`'s length; otherwise it returns `A` unchanged. -/
theorem replacePrefix_correct (A P Q : HdDataSourceLocator α) :
    (A.HasPrefix P = true →
      A.ReplacePrefix P Q = Q.Append ⟨A._tokens.drop P.GetElementCount⟩) ∧
    (A.HasPrefix P = false → A.ReplacePrefix P Q = A) := by
  constructor
  · intro h
    unfold HdDataSourceLocator.ReplacePrefix
    rw [if_pos h]
    rfl
  · intro h
    unfold HdDataSourceLocator.ReplacePrefix
    rw [if_neg]
    simp [h]

theorem replacePrefix_correct_witness :
    (⟨[0, 1]⟩ : HdDataSourceLocator ℕ).ReplacePrefix ⟨[0]⟩ ⟨[5]⟩ =
      HdDataSourceLocator.Append ⟨[5]⟩
        ⟨(⟨[0, 1]⟩ : HdDataSourceLocator ℕ)._tokens.drop
          (⟨[0]⟩ : HdDataSourceLocator ℕ).GetElementCount⟩ ∧
    (⟨[3]⟩ : HdDataSourceLocator ℕ).ReplacePrefix ⟨[0]⟩ ⟨[5]⟩ = ⟨[3]⟩ :=
  ⟨(replacePrefix_correct (⟨[0, 1]⟩ : HdDataSourceLocator ℕ) ⟨[0]⟩ ⟨[5]⟩).1
      (by decide),
   (replacePrefix_correct (⟨[3]⟩ : HdDataSourceLocator ℕ) ⟨[0]⟩ ⟨[5]⟩).2
      (by decide)⟩

/-- C7: on the empty locator, `RemoveLastElement` and `RemoveFirstElement`
return the empty locator, and `ReplaceLastElement(tok)` returns an identical
empty copy for every token; none of these operations signals an error (they
are total functions). -/
theorem empty_locator_removals (tok : α) :
    (HdDataSourceLocator.EmptyLocator : HdDataSourceLocator α).RemoveLastElement =
      HdDataSourceLocator.EmptyLocator ∧
    (HdDataSourceLocator.EmptyLocator : HdDataSourceLocator α).RemoveFirstElement =
      HdDataSourceLocator.EmptyLocator ∧
    (HdDataSourceLocator.EmptyLocator : HdDataSourceLocator α).ReplaceLastElement tok =
      HdDataSourceLocator.EmptyLocator :=
  ⟨rfl, rfl, rfl⟩

theorem empty_locator_removals_witness :
    (HdDataSourceLocator.EmptyLocator : HdDataSourceLocator ℕ).RemoveLastElement =
      HdDataSourceLocator.EmptyLocator ∧
    (HdDataSourceLocator.EmptyLocator : HdDataSourceLocator ℕ).RemoveFirstElement =
      HdDataSourceLocator.EmptyLocator ∧
    (HdDataSourceLocator.EmptyLocator : HdDataSourceLocator ℕ).ReplaceLastElement 7 =
      HdDataSourceLocator.EmptyLocator :=
  empty_locator_removals 7

/-- C8: `operator<` on locators is a strict total order (irreflexive,
transitive, exactly one of `A < B` or `B < A` for distinct locators), equal
to the lexicographic order over element sequences, in which a proper prefix
is strictly less than any locator extending it. -/
theorem locator_lt_strict_total_order (A B C : HdDataSourceLocator α) :
    A.lt A = false ∧
    (A.lt B = true → B.lt C = true → A.lt C = true) ∧
    (A ≠ B → (A.lt B = true ↔ B.lt A = false)) ∧
    (A.lt B = true ↔ List.Lex (· < ·) A._tokens B._tokens) ∧
    (B.HasPrefix A = true → A ≠ B → A.lt B = true) := by
  refine ⟨lexLt_irrefl _, fun h1 h2 => lexLt_trans h1 h2, ?_, lexLt_iff_lex, ?_⟩
  · intro hne
    constructor
    · exact lexLt_asymm
    · intro h
      rcases lexLt_of_lexLt_false h with h' | h'
      · exact h'
      · exact absurd (tokens_injective h').symm hne
  · intro hpref hne
    rw [HasPrefix_iff_isPref] at hpref
    exact lexLt_of_proper_isPref hpref fun e => hne (tokens_injective e)

theorem locator_lt_strict_total_order_witness :
    (⟨[0]⟩ : HdDataSourceLocator ℕ).lt ⟨[2]⟩ = true ∧
    ((⟨[0]⟩ : HdDataSourceLocator ℕ).lt ⟨[0, 1]⟩ = true ↔
      (⟨[0, 1]⟩ : HdDataSourceLocator ℕ).lt ⟨[0]⟩ = false) ∧
    (⟨[0]⟩ : HdDataSourceLocator ℕ).lt ⟨[0, 1]⟩ = true :=
  ⟨(locator_lt_strict_total_order (⟨[0]⟩ : HdDataSourceLocator ℕ) ⟨[0, 1]⟩
      ⟨[2]⟩).2.1 (by decide) (by decide),
   (locator_lt_strict_total_order (⟨[0]⟩ : HdDataSourceLocator ℕ) ⟨[0, 1]⟩
      ⟨[2]⟩).2.2.1 (by decide),
   (locator_lt_strict_total_order (⟨[0]⟩ : HdDataSourceLocator ℕ) ⟨[0, 1]⟩
      ⟨[2]⟩).2.2.2.2 (by decide) (by decide)⟩

/-- C9: a set intersects a locator iff some member intersects it; a set
intersects a set iff some member of the first intersects some member of the
second; the empty set intersects nothing. -/
theorem set_intersects_characterization (s t : HdDataSourceLocatorSet α)
    (l : HdDataSourceLocator α) :
    (s.Intersects l = true ↔
      ∃ m ∈ s._locators, HdDataSourceLocator.Intersects m l = true) ∧
    (s.IntersectsSet t = true ↔
      ∃ m ∈ s._locators, ∃ n ∈ t._locators,
        HdDataSourceLocator.Intersects m n = true) ∧
    HdDataSourceLocatorSet.empty.Intersects l = false ∧
    (HdDataSourceLocatorSet.empty : HdDataSourceLocatorSet α).IntersectsSet t =
      false := by
  refine ⟨?_, ?_, rfl, rfl⟩
  · unfold HdDataSourceLocatorSet.Intersects
    rw [List.any_eq_true]
  · unfold HdDataSourceLocatorSet.IntersectsSet
    simp [List.any_eq_true]

theorem set_intersects_characterization_witness :
    ((⟨[⟨[0]⟩]⟩ : HdDataSourceLocatorSet ℕ).Intersects ⟨[0, 1]⟩ = true ↔
      ∃ m ∈ (⟨[⟨[0]⟩]⟩ : HdDataSourceLocatorSet ℕ)._locators,
        HdDataSourceLocator.Intersects m ⟨[0, 1]⟩ = true) ∧
    ((⟨[⟨[0]⟩]⟩ : HdDataSourceLocatorSet ℕ).IntersectsSet ⟨[⟨[2]⟩]⟩ = true ↔
      ∃ m ∈ (⟨[⟨[0]⟩]⟩ : HdDataSourceLocatorSet ℕ)._locators,
        ∃ n ∈ (⟨[⟨[2]⟩]⟩ : HdDataSourceLocatorSet ℕ)._locators,
          HdDataSourceLocator.Intersects m n = true) ∧
    HdDataSourceLocatorSet.empty.Intersects
      (⟨[0, 1]⟩ : HdDataSourceLocator ℕ) = false ∧
    (HdDataSourceLocatorSet.empty : HdDataSourceLocatorSet ℕ).IntersectsSet
      ⟨[⟨[2]⟩]⟩ = false :=
  set_intersects_characterization _ _ _

/-- C10: the empty locator is a two-sided identity for concatenation via
`Append` and `Prepend`. -/
theorem append_prepend_empty_identity (A : HdDataSourceLocator α) :
    A.Append HdDataSourceLocator.EmptyLocator = A ∧
    A.Prepend HdDataSourceLocator.EmptyLocator = A ∧
    HdDataSourceLocator.EmptyLocator.Append A = A ∧
    HdDataSourceLocator.EmptyLocator.Prepend A = A := by
  refine ⟨?_, ?_, ?_, ?_⟩ <;>
    · apply tokens_injective
      simp [HdDataSourceLocator.Append, HdDataSourceLocator.Prepend,
        HdDataSourceLocator.EmptyLocator]

theorem append_prepend_empty_identity_witness :
    (⟨[1, 2]⟩ : HdDataSourceLocator ℕ).Append
      HdDataSourceLocator.EmptyLocator = ⟨[1, 2]⟩ ∧
    (⟨[1, 2]⟩ : HdDataSourceLocator ℕ).Prepend
      HdDataSourceLocator.EmptyLocator = ⟨[1, 2]⟩ ∧
    HdDataSourceLocator.EmptyLocator.Append
      (⟨[1, 2]⟩ : HdDataSourceLocator ℕ) = ⟨[1, 2]⟩ ∧
    HdDataSourceLocator.EmptyLocator.Prepend
      (⟨[1, 2]⟩ : HdDataSourceLocator ℕ) = ⟨[1, 2]⟩ :=
  append_prepend_empty_identity _

end HdSpec
